import Mathlib

/-!
Verification of the core engines of the notetaking repository.

The development shallowly embeds the relevant Rust source into Lean:

* src/encryption.rs — the Encryption Engine (`encrypt`, `decrypt`,
  `set_password`, `verify_password`, `is_password_set`);
* src/links.rs — the Link Graph (`scan_note_for_links`, `add_link`,
  `rebuild_links_for_note`);
* src/storage.rs — `sanitize_filename` and the metadata sidecar written by
  `save_note`;
* src/note.rs — `NoteMetadata`.

Bytes are modelled as `Nat` (all byte lists produced by the model are
pointwise `< 256`, proved where needed).  External library primitives used
by the source (base64, UTF-8 string encoding, the argon2 KDF, the AES-GCM
AEAD) are modelled executably; base64 and UTF-8 follow the real encodings,
while the KDF and the AEAD are ideal (collision-free, perfectly
authenticating) functional models, which is the standard symbolic reading
of the cryptographic primitives.
-/

/-! ## Base64 (models the base64 crate, standard alphabet with padding) -/

/-- The standard base64 alphabet, as used by `general_purpose::STANDARD`. -/
def b64Alphabet : List Char :=
  "ABCDEFGHIJKLMNOPQRSTUVWXYZabcdefghijklmnopqrstuvwxyz0123456789+/".data

/-- Character for a six-bit value. -/
def sixbitChar (n : Nat) : Char := b64Alphabet.getD n 'A'

def charSixbitAux : List Char → Nat → Char → Option Nat
  | [], _, _ => none
  | c :: cs, i, t => if c = t then some i else charSixbitAux cs (i + 1) t

/-- Six-bit value of an alphabet character (`none` for characters outside
the alphabet, e.g. padding or garbage). -/
def charSixbit (c : Char) : Option Nat := charSixbitAux b64Alphabet 0 c

/-- Base64-encode a byte list (standard alphabet, with padding),
modelling `general_purpose::STANDARD.encode`. -/
def base64EncodeL : List Nat → List Char
  | [] => []
  | [b1] => [sixbitChar (b1 / 4), sixbitChar (b1 % 4 * 16), '=', '=']
  | [b1, b2] =>
      [sixbitChar (b1 / 4), sixbitChar (b1 % 4 * 16 + b2 / 16),
       sixbitChar (b2 % 16 * 4), '=']
  | b1 :: b2 :: b3 :: rest =>
      sixbitChar (b1 / 4) :: sixbitChar (b1 % 4 * 16 + b2 / 16) ::
      sixbitChar (b2 % 16 * 4 + b3 / 64) :: sixbitChar (b3 % 64) ::
      base64EncodeL rest

def base64Encode (bs : List Nat) : String := String.mk (base64EncodeL bs)

/-- Base64-decode, modelling `general_purpose::STANDARD.decode`: the input
must be a sequence of four-character groups; padding appears only in the
final group and must be canonical (unused trailing bits zero); characters
outside the alphabet are rejected. -/
def base64DecodeL : List Char → Option (List Nat)
  | [] => some []
  | c1 :: c2 :: c3 :: c4 :: rest =>
      if c3 = '=' then
        match charSixbit c1, charSixbit c2 with
        | some s1, some s2 =>
            if c4 = '=' ∧ rest = [] ∧ s2 % 16 = 0 then
              some [s1 * 4 + s2 / 16]
            else none
        | _, _ => none
      else if c4 = '=' then
        match charSixbit c1, charSixbit c2, charSixbit c3 with
        | some s1, some s2, some s3 =>
            if rest = [] ∧ s3 % 4 = 0 then
              some [s1 * 4 + s2 / 16, s2 % 16 * 16 + s3 / 4]
            else none
        | _, _, _ => none
      else
        match charSixbit c1, charSixbit c2, charSixbit c3, charSixbit c4,
              base64DecodeL rest with
        | some s1, some s2, some s3, some s4, some bs =>
            some ((s1 * 4 + s2 / 16) :: (s2 % 16 * 16 + s3 / 4) ::
                  (s3 % 4 * 64 + s4) :: bs)
        | _, _, _, _, _ => none
  | _ => none

def base64Decode (s : String) : Option (List Nat) := base64DecodeL s.data

theorem charSixbit_sixbitChar_range :
    ∀ n ∈ List.range 64, charSixbit (sixbitChar n) = some n := by decide

theorem charSixbit_sixbitChar {n : Nat} (h : n < 64) :
    charSixbit (sixbitChar n) = some n :=
  charSixbit_sixbitChar_range n (List.mem_range.mpr h)

theorem sixbitChar_ne_pad_range : ∀ n ∈ List.range 64, sixbitChar n ≠ '=' := by
  decide

theorem sixbitChar_ne_pad (n : Nat) : sixbitChar n ≠ '=' := by
  by_cases h : n < 64
  · exact sixbitChar_ne_pad_range n (List.mem_range.mpr h)
  · have : b64Alphabet.length ≤ n := by
      have : b64Alphabet.length = 64 := by decide
      omega
    unfold sixbitChar
    rw [List.getD_eq_default _ _ this]
    decide

theorem base64_roundtripL :
    ∀ bs : List Nat, (∀ b ∈ bs, b < 256) →
      base64DecodeL (base64EncodeL bs) = some bs := by
  intro bs
  induction bs using base64EncodeL.induct with
  | case1 => intro _; rfl
  | case2 b1 =>
      intro h
      have hb1 : b1 < 256 := h b1 (by simp)
      have e1 := charSixbit_sixbitChar (show b1 / 4 < 64 by omega)
      have e2 := charSixbit_sixbitChar (show b1 % 4 * 16 < 64 by omega)
      simp [base64EncodeL, base64DecodeL, e1, e2,
        show b1 % 4 * 16 % 16 = 0 by omega]
      omega
  | case3 b1 b2 =>
      intro h
      have hb1 : b1 < 256 := h b1 (by simp)
      have hb2 : b2 < 256 := h b2 (by simp)
      have e1 := charSixbit_sixbitChar (show b1 / 4 < 64 by omega)
      have e2 := charSixbit_sixbitChar (show b1 % 4 * 16 + b2 / 16 < 64 by omega)
      have e3 := charSixbit_sixbitChar (show b2 % 16 * 4 < 64 by omega)
      simp [base64EncodeL, base64DecodeL, e1, e2, e3,
        sixbitChar_ne_pad (b2 % 16 * 4),
        show b2 % 16 * 4 % 4 = 0 by omega]
      constructor <;> omega
  | case4 b1 b2 b3 rest ih =>
      intro h
      have hb1 : b1 < 256 := h b1 (by simp)
      have hb2 : b2 < 256 := h b2 (by simp)
      have hb3 : b3 < 256 := h b3 (by simp)
      have hrest : ∀ b ∈ rest, b < 256 := fun b hb => h b (by simp [hb])
      have e1 := charSixbit_sixbitChar (show b1 / 4 < 64 by omega)
      have e2 := charSixbit_sixbitChar (show b1 % 4 * 16 + b2 / 16 < 64 by omega)
      have e3 := charSixbit_sixbitChar (show b2 % 16 * 4 + b3 / 64 < 64 by omega)
      have e4 := charSixbit_sixbitChar (show b3 % 64 < 64 by omega)
      simp [base64EncodeL, base64DecodeL, e1, e2, e3, e4,
        sixbitChar_ne_pad (b2 % 16 * 4 + b3 / 64),
        sixbitChar_ne_pad (b3 % 64), ih hrest]
      refine ⟨by omega, by omega, by omega⟩

theorem base64_roundtrip (bs : List Nat) (h : ∀ b ∈ bs, b < 256) :
    base64Decode (base64Encode bs) = some bs :=
  base64_roundtripL bs h

/-- Base64 encoding is injective on byte lists. -/
theorem base64Encode_injective {a b : List Nat}
    (ha : ∀ x ∈ a, x < 256) (hb : ∀ x ∈ b, x < 256)
    (h : base64Encode a = base64Encode b) : a = b := by
  have h1 := base64_roundtrip a ha
  have h2 := base64_roundtrip b hb
  unfold base64Decode at h1 h2
  rw [show (base64Encode a).data = (base64Encode b).data from congrArg String.data h] at h1
  rw [h2] at h1
  exact (Option.some_injective _ h1).symm


/-! ## UTF-8 (models `str::as_bytes` / `String::from_utf8`) -/

/-- UTF-8 encoding of a unicode scalar value. -/
def utf8EncodeCharNat (c : Nat) : List Nat :=
  if c < 0x80 then [c]
  else if c < 0x800 then [0xC0 + c / 64, 0x80 + c % 64]
  else if c < 0x10000 then
    [0xE0 + c / 4096, 0x80 + c / 64 % 64, 0x80 + c % 64]
  else
    [0xF0 + c / 262144, 0x80 + c / 4096 % 64, 0x80 + c / 64 % 64,
     0x80 + c % 64]

/-- The UTF-8 bytes of a string, modelling Rust `str::as_bytes`. -/
def utf8Bytes (s : String) : List Nat :=
  s.data.foldr (fun c acc => utf8EncodeCharNat c.toNat ++ acc) []

/-- Decode one UTF-8 scalar value from a byte list; strict: rejects stray
or missing continuation bytes, overlong forms, surrogates and
out-of-range values.  Returns the character and the remaining bytes. -/
def utf8DecodeOne : List Nat → Option (Char × List Nat)
  | [] => none
  | b :: rest =>
    if b < 0x80 then some (Char.ofNat b, rest)
    else if b < 0xC0 then none
    else if b < 0xE0 then
      match rest with
      | b2 :: rest2 =>
        if 0x80 ≤ b2 ∧ b2 < 0xC0 then
          let n := (b - 0xC0) * 64 + (b2 - 0x80)
          if 0x80 ≤ n then some (Char.ofNat n, rest2) else none
        else none
      | _ => none
    else if b < 0xF0 then
      match rest with
      | b2 :: b3 :: rest2 =>
        if (0x80 ≤ b2 ∧ b2 < 0xC0) ∧ (0x80 ≤ b3 ∧ b3 < 0xC0) then
          let n := (b - 0xE0) * 4096 + (b2 - 0x80) * 64 + (b3 - 0x80)
          if 0x800 ≤ n ∧ (n < 0xD800 ∨ 0xDFFF < n) then
            some (Char.ofNat n, rest2)
          else none
        else none
      | _ => none
    else if b < 0xF8 then
      match rest with
      | b2 :: b3 :: b4 :: rest2 =>
        if (0x80 ≤ b2 ∧ b2 < 0xC0) ∧ (0x80 ≤ b3 ∧ b3 < 0xC0) ∧
           (0x80 ≤ b4 ∧ b4 < 0xC0) then
          let n := (b - 0xF0) * 262144 + (b2 - 0x80) * 4096 +
                   (b3 - 0x80) * 64 + (b4 - 0x80)
          if 0x10000 ≤ n ∧ n < 0x110000 then
            some (Char.ofNat n, rest2)
          else none
        else none
      | _ => none
    else none

theorem utf8DecodeOne_length {l : List Nat} {c : Char} {r : List Nat}
    (h : utf8DecodeOne l = some (c, r)) : r.length < l.length := by
  match l with
  | [] => simp [utf8DecodeOne] at h
  | b :: rest =>
      unfold utf8DecodeOne at h
      repeat' split at h
      all_goals simp_all
      all_goals omega

/-- UTF-8 decoding of a byte list to a character list. -/
def utf8DecodeList (l : List Nat) : Option (List Char) :=
  match h : utf8DecodeOne l with
  | none => if l = [] then some [] else none
  | some (c, r) => (utf8DecodeList r).map (fun cs => c :: cs)
termination_by l.length
decreasing_by exact utf8DecodeOne_length h

/-- Models `String::from_utf8`. -/
def stringFromUtf8 (bs : List Nat) : Option String :=
  (utf8DecodeList bs).map String.mk

theorem char_toNat_valid (c : Char) :
    c.toNat < 0xD800 ∨ (0xDFFF < c.toNat ∧ c.toNat < 0x110000) := by
  have h := c.valid
  unfold UInt32.isValidChar Nat.isValidChar at h
  exact h

theorem utf8DecodeOne_encode (c : Char) (rest : List Nat) :
    utf8DecodeOne (utf8EncodeCharNat c.toNat ++ rest) = some (c, rest) := by
  have hv := char_toNat_valid c
  set n := c.toNat with hn
  by_cases h1 : n < 0x80
  · rw [show utf8EncodeCharNat n = [n] from by
      unfold utf8EncodeCharNat; rw [if_pos h1]]
    rw [List.cons_append, List.nil_append]
    simp only [utf8DecodeOne]
    rw [if_pos h1, Char.ofNat_toNat]
  · by_cases h2 : n < 0x800
    · rw [show utf8EncodeCharNat n = [0xC0 + n / 64, 0x80 + n % 64] from by
        unfold utf8EncodeCharNat; rw [if_neg h1, if_pos h2]]
      rw [List.cons_append, List.cons_append, List.nil_append]
      simp only [utf8DecodeOne]
      rw [if_neg (show ¬ (0xC0 + n / 64 < 0x80) by omega)]
      rw [if_neg (show ¬ (0xC0 + n / 64 < 0xC0) by omega)]
      rw [if_pos (show 0xC0 + n / 64 < 0xE0 by omega)]
      rw [if_pos (show 0x80 ≤ 0x80 + n % 64 ∧ 0x80 + n % 64 < 0xC0 by omega)]
      rw [show (0xC0 + n / 64 - 0xC0) * 64 + (0x80 + n % 64 - 0x80) = n by
        omega]
      rw [if_pos (show 0x80 ≤ n by omega), Char.ofNat_toNat]
    · by_cases h3 : n < 0x10000
      · rw [show utf8EncodeCharNat n =
            [0xE0 + n / 4096, 0x80 + n / 64 % 64, 0x80 + n % 64] from by
          unfold utf8EncodeCharNat; rw [if_neg h1, if_neg h2, if_pos h3]]
        rw [List.cons_append, List.cons_append, List.cons_append,
          List.nil_append]
        simp only [utf8DecodeOne]
        rw [if_neg (show ¬ (0xE0 + n / 4096 < 0x80) by omega)]
        rw [if_neg (show ¬ (0xE0 + n / 4096 < 0xC0) by omega)]
        rw [if_neg (show ¬ (0xE0 + n / 4096 < 0xE0) by omega)]
        rw [if_pos (show 0xE0 + n / 4096 < 0xF0 by omega)]
        rw [if_pos (show (0x80 ≤ 0x80 + n / 64 % 64 ∧ 0x80 + n / 64 % 64 < 0xC0)
          ∧ (0x80 ≤ 0x80 + n % 64 ∧ 0x80 + n % 64 < 0xC0) by omega)]
        rw [show (0xE0 + n / 4096 - 0xE0) * 4096 +
          (0x80 + n / 64 % 64 - 0x80) * 64 + (0x80 + n % 64 - 0x80) = n by
          omega]
        rw [if_pos (show 0x800 ≤ n ∧ (n < 0xD800 ∨ 0xDFFF < n) by omega),
          Char.ofNat_toNat]
      · rw [show utf8EncodeCharNat n =
            [0xF0 + n / 262144, 0x80 + n / 4096 % 64, 0x80 + n / 64 % 64,
             0x80 + n % 64] from by
          unfold utf8EncodeCharNat; rw [if_neg h1, if_neg h2, if_neg h3]]
        rw [List.cons_append, List.cons_append, List.cons_append,
          List.cons_append, List.nil_append]
        simp only [utf8DecodeOne]
        rw [if_neg (show ¬ (0xF0 + n / 262144 < 0x80) by omega)]
        rw [if_neg (show ¬ (0xF0 + n / 262144 < 0xC0) by omega)]
        rw [if_neg (show ¬ (0xF0 + n / 262144 < 0xE0) by omega)]
        rw [if_neg (show ¬ (0xF0 + n / 262144 < 0xF0) by omega)]
        rw [if_pos (show 0xF0 + n / 262144 < 0xF8 by omega)]
        rw [if_pos (show
          (0x80 ≤ 0x80 + n / 4096 % 64 ∧ 0x80 + n / 4096 % 64 < 0xC0) ∧
          (0x80 ≤ 0x80 + n / 64 % 64 ∧ 0x80 + n / 64 % 64 < 0xC0) ∧
          (0x80 ≤ 0x80 + n % 64 ∧ 0x80 + n % 64 < 0xC0) by omega)]
        rw [show (0xF0 + n / 262144 - 0xF0) * 262144 +
          (0x80 + n / 4096 % 64 - 0x80) * 4096 +
          (0x80 + n / 64 % 64 - 0x80) * 64 + (0x80 + n % 64 - 0x80) = n by
          omega]
        rw [if_pos (show 0x10000 ≤ n ∧ n < 0x110000 by omega),
          Char.ofNat_toNat]

theorem utf8DecodeList_encode_cons (c : Char) (rest : List Nat) :
    utf8DecodeList (utf8EncodeCharNat c.toNat ++ rest) =
      (utf8DecodeList rest).map (fun cs => c :: cs) := by
  rw [utf8DecodeList, utf8DecodeOne_encode]

theorem utf8DecodeList_foldr (cs : List Char) :
    utf8DecodeList
      (cs.foldr (fun c acc => utf8EncodeCharNat c.toNat ++ acc) []) =
      some cs := by
  induction cs with
  | nil =>
      rw [utf8DecodeList]
      simp [utf8DecodeOne]
  | cons c cs ih =>
      simp only [List.foldr_cons, utf8DecodeList_encode_cons, ih, Option.map]

/-- UTF-8 round-trip: decoding the bytes of a string recovers it. -/
theorem stringFromUtf8_utf8Bytes (s : String) :
    stringFromUtf8 (utf8Bytes s) = some s := by
  unfold stringFromUtf8 utf8Bytes
  rw [utf8DecodeList_foldr]
  rfl

/-- The function `utf8Bytes` is injective. -/
theorem utf8Bytes_injective {s t : String} (h : utf8Bytes s = utf8Bytes t) :
    s = t := by
  have h1 := stringFromUtf8_utf8Bytes s
  have h2 := stringFromUtf8_utf8Bytes t
  rw [h, h2] at h1
  exact (Option.some_injective _ h1).symm

theorem utf8EncodeCharNat_lt {n : Nat} (hn : n < 0x110000) :
    ∀ b ∈ utf8EncodeCharNat n, b < 256 := by
  intro b hb
  unfold utf8EncodeCharNat at hb
  by_cases h1 : n < 0x80
  · rw [if_pos h1] at hb; simp at hb; omega
  · rw [if_neg h1] at hb
    by_cases h2 : n < 0x800
    · rw [if_pos h2] at hb; simp at hb; rcases hb with h | h <;> omega
    · rw [if_neg h2] at hb
      by_cases h3 : n < 0x10000
      · rw [if_pos h3] at hb; simp at hb; rcases hb with h | h | h <;> omega
      · rw [if_neg h3] at hb; simp at hb
        rcases hb with h | h | h | h <;> omega

theorem utf8Bytes_lt (s : String) : ∀ b ∈ utf8Bytes s, b < 256 := by
  unfold utf8Bytes
  induction s.data with
  | nil => intro b hb; simp at hb
  | cons c cs ih =>
      intro b hb
      simp only [List.foldr_cons, List.mem_append] at hb
      rcases hb with hb | hb
      · have hv := char_toNat_valid c
        exact utf8EncodeCharNat_lt (by omega) b hb
      · exact ih b hb

/-! ## Encryption Engine (src/encryption.rs)

The argon2 KDF and the AES-GCM AEAD are external crates; they are modelled
as ideal primitives: `deriveKey` is deterministic in `(password, salt)` and
collision-free (distinct passwords with the same salt give distinct keys),
and the AEAD authenticates perfectly (decryption succeeds exactly under the
key and nonce used to encrypt).  This is the standard symbolic model under
which the spec's round-trip and wrong-password properties are stated. -/

/-- Models `Encryption::derive_key`: an ideal memory-hard KDF, deterministic
in the password and salt and collision-free.  (The Rust code returns a
`Result`; its error arms concern salt re-encoding limits of the argon2 API
and cannot fire for the 16-byte salts produced by `encrypt`.) -/
def deriveKey (password : String) (salt : List Nat) : List Nat :=
  utf8Bytes password ++ 0 :: salt

/-- Ideal AEAD encryption, modelling `Aes256Gcm::encrypt`: the ciphertext
is an injective encoding of key, nonce and plaintext (lengths are recorded
in unary so the three parts can be recovered unambiguously). -/
def aeadEncrypt (key nonce pt : List Nat) : List Nat :=
  List.replicate key.length 1 ++ 0 ::
    (key ++ (List.replicate nonce.length 1 ++ 0 :: (nonce ++ pt)))

def splitUnary : List Nat → Option (Nat × List Nat)
  | 0 :: rest => some (0, rest)
  | 1 :: rest =>
      match splitUnary rest with
      | some (n, r) => some (n + 1, r)
      | none => none
  | _ => none

/-- Ideal AEAD decryption, modelling `Aes256Gcm::decrypt`: recovers the
plaintext exactly when the supplied key and nonce are the ones the
ciphertext was produced under; any mismatch is an authentication failure
(`none`), indistinguishable from corrupted data. -/
def aeadDecrypt (key nonce ct : List Nat) : Option (List Nat) :=
  match splitUnary ct with
  | some (kl, r1) =>
      if r1.length < kl then none
      else
        let k := r1.take kl
        let r2 := r1.drop kl
        match splitUnary r2 with
        | some (nl, r3) =>
            if r3.length < nl then none
            else
              let nn := r3.take nl
              let pt := r3.drop nl
              if k = key ∧ nn = nonce then some pt else none
        | none => none
  | none => none

theorem splitUnary_replicate (n : Nat) (rest : List Nat) :
    splitUnary (List.replicate n 1 ++ 0 :: rest) = some (n, rest) := by
  induction n with
  | zero => rfl
  | succ n ih =>
      rw [List.replicate_succ, List.cons_append]
      simp only [splitUnary, ih]

/-- The ideal AEAD round-trips under the same key and nonce. -/
theorem aeadDecrypt_aeadEncrypt (key nonce pt : List Nat) :
    aeadDecrypt key nonce (aeadEncrypt key nonce pt) = some pt := by
  unfold aeadEncrypt aeadDecrypt
  rw [splitUnary_replicate]
  simp only
  rw [if_neg (by simp [List.length_append])]
  rw [List.take_left, List.drop_left]
  rw [splitUnary_replicate]
  simp only
  rw [if_neg (by simp [List.length_append])]
  rw [List.take_left, List.drop_left]
  simp

/-- The ideal AEAD rejects any other key (authentication failure). -/
theorem aeadDecrypt_wrong_key (key key2 nonce pt : List Nat)
    (h : key ≠ key2) :
    aeadDecrypt key2 nonce (aeadEncrypt key nonce pt) = none := by
  unfold aeadEncrypt aeadDecrypt
  rw [splitUnary_replicate]
  simp only
  rw [if_neg (by simp [List.length_append])]
  rw [List.take_left, List.drop_left]
  rw [splitUnary_replicate]
  simp only
  rw [if_neg (by simp [List.length_append])]
  rw [List.take_left, List.drop_left]
  rw [if_neg (by intro hc; exact h hc.1)]

theorem aeadEncrypt_lt {key nonce pt : List Nat}
    (hk : ∀ b ∈ key, b < 256) (hn : ∀ b ∈ nonce, b < 256)
    (hp : ∀ b ∈ pt, b < 256) :
    ∀ b ∈ aeadEncrypt key nonce pt, b < 256 := by
  intro b hb
  unfold aeadEncrypt at hb
  rcases List.mem_append.mp hb with h | h
  · rw [List.eq_of_mem_replicate h]; omega
  · rcases List.mem_cons.mp h with h0 | h
    · omega
    · rcases List.mem_append.mp h with h | h
      · exact hk b h
      · rcases List.mem_append.mp h with h | h
        · rw [List.eq_of_mem_replicate h]; omega
        · rcases List.mem_cons.mp h with h0 | h
          · omega
          · rcases List.mem_append.mp h with h | h
            · exact hn b h
            · exact hp b h

theorem deriveKey_lt (password : String) {salt : List Nat}
    (hs : ∀ b ∈ salt, b < 256) : ∀ b ∈ deriveKey password salt, b < 256 := by
  intro b hb
  unfold deriveKey at hb
  simp only [List.mem_append, List.mem_cons] at hb
  rcases hb with h | h | h
  · exact utf8Bytes_lt password b h
  · omega
  · exact hs b h

/-- The ideal KDF is collision-free in the password for a fixed salt. -/
theorem deriveKey_injective_password {p1 p2 : String} {salt : List Nat}
    (h : deriveKey p1 salt = deriveKey p2 salt) : p1 = p2 := by
  unfold deriveKey at h
  exact utf8Bytes_injective (List.append_cancel_right h)

/-- Struct `EncryptedData` (src/encryption.rs lines 10-15): three independently
base64-encoded fields. -/
structure EncryptedData where
  ciphertext : String
  nonce : String
  salt : String
deriving DecidableEq

/-- Struct `Encryption` (src/encryption.rs lines 17-19): holds only the optional
application-wide password verifier hash. -/
structure Encryption where
  password_hash : Option String
deriving DecidableEq

/-- Models `Encryption::new`. -/
def Encryption.new : Encryption := { password_hash := none }

/-- The PHC-style hash string stored by `set_password`, with the argon2
digest modelled by the ideal KDF over the salt string's bytes. -/
def argonHashString (password salt : String) : String :=
  String.append (String.append (String.append "$argon2id$" salt) "$")
    (base64Encode (deriveKey password (utf8Bytes salt)))

/-- Models `Encryption::set_password`: hashes the password with a fresh
random salt (passed explicitly as the random input) and stores only the
resulting hash string. -/
def Encryption.set_password (_e : Encryption) (password salt : String) :
    Encryption :=
  { password_hash := some (argonHashString password salt) }

/-- Models `PasswordHash::new`: parses a PHC-style hash string into its
salt and digest components; fails on anything malformed. -/
def parsePasswordHash (h : String) : Option (String × String) :=
  match h.splitOn "$" with
  | ["", "argon2id", salt, digest] => some (salt, digest)
  | _ => none

/-- Models `Encryption::verify_password` (src/encryption.rs lines 41-50): returns
`false` when no hash is stored, when the stored hash fails to parse, or
when verification fails. -/
def Encryption.verify_password (e : Encryption) (password : String) : Bool :=
  match e.password_hash with
  | some h =>
      match parsePasswordHash h with
      | some (salt, digest) =>
          decide (base64Encode (deriveKey password (utf8Bytes salt)) = digest)
      | none => false
  | none => false

/-- Models `Encryption::is_password_set` (src/encryption.rs lines 52-54). -/
def Encryption.is_password_set (e : Encryption) : Bool :=
  e.password_hash.isSome

/-- Models `Encryption::encrypt` (src/encryption.rs lines 71-98).  The fresh
random salt (16 bytes) and nonce (12 bytes) drawn from `OsRng` are passed
as explicit random-input arguments.  The Rust `Result` wrapper is dropped:
its error arms (cipher construction with a malformed key length) cannot
fire, the derived key being always 32 bytes. -/
def Encryption.encrypt (plaintext password : String)
    (salt nonce : List Nat) : EncryptedData :=
  let key := deriveKey password salt
  let ct := aeadEncrypt key nonce (utf8Bytes plaintext)
  { ciphertext := base64Encode ct
    nonce := base64Encode nonce
    salt := base64Encode salt }

/-- Outcome of `Encryption::decrypt`: a normal `Result` (ok or err), or a
process abort (`panicked`) — the latter models a Rust panic, which is not
a returned error. -/
inductive DecryptResult where
  | ok (plaintext : String)
  | err (msg : String)
  | panicked (msg : String)
deriving DecidableEq

/-- Models `Encryption::decrypt` (src/encryption.rs lines 100-129): base64-decodes
the three fields (errors on malformed base64), re-derives the key from the
password and stored salt, then authenticates and decrypts.  Faithful to the
source, `Nonce::from_slice` is applied to the decoded nonce bytes, and that
`GenericArray` conversion panics when the slice length is not 12.  Error
strings keep the source's literal text; the formatted underlying library
error appended by `format!` is elided except in the authentication-failure
message, which is a fixed literal in the source. -/
def Encryption.decrypt (encrypted : EncryptedData) (password : String) :
    DecryptResult :=
  match base64Decode encrypted.ciphertext with
  | none => .err "Invalid ciphertext"
  | some ciphertext =>
    match base64Decode encrypted.nonce with
    | none => .err "Invalid nonce"
    | some nonce_bytes =>
      match base64Decode encrypted.salt with
      | none => .err "Invalid salt"
      | some salt =>
        let key := deriveKey password salt
        if nonce_bytes.length = 12 then
          match aeadDecrypt key nonce_bytes ciphertext with
          | none => .err "Decryption failed - wrong password?"
          | some plaintext =>
            match stringFromUtf8 plaintext with
            | none => .err "Invalid UTF-8"
            | some s => .ok s
        else .panicked "GenericArray::from_slice: slice length mismatch"

/-- Evaluation of `decrypt` on the output of `encrypt` (possibly under a
different password): the base64 layers round-trip and the result reduces to
the AEAD authentication step. -/
theorem decrypt_encrypt_eval (P W1 W2 : String) (salt nonce : List Nat)
    (hsb : ∀ b ∈ salt, b < 256) (hnl : nonce.length = 12)
    (hnb : ∀ b ∈ nonce, b < 256) :
    Encryption.decrypt (Encryption.encrypt P W1 salt nonce) W2 =
      match aeadDecrypt (deriveKey W2 salt) nonce
          (aeadEncrypt (deriveKey W1 salt) nonce (utf8Bytes P)) with
      | none => DecryptResult.err "Decryption failed - wrong password?"
      | some pt =>
        match stringFromUtf8 pt with
        | none => DecryptResult.err "Invalid UTF-8"
        | some s => DecryptResult.ok s := by
  have hct : ∀ b ∈ aeadEncrypt (deriveKey W1 salt) nonce (utf8Bytes P),
      b < 256 :=
    aeadEncrypt_lt (deriveKey_lt W1 hsb) hnb (utf8Bytes_lt P)
  unfold Encryption.encrypt Encryption.decrypt
  simp only [base64_roundtrip _ hct, base64_roundtrip _ hnb,
    base64_roundtrip _ hsb, hnl, if_true]

/-- C1: for every plaintext string P and password string W,
`decrypt(encrypt(P, W), W)` succeeds and returns exactly P — the
round-trip through the Encryption Engine is the identity on the plaintext.
The fresh random salt (16 bytes) and nonce (12 bytes) drawn inside
`encrypt` are quantified explicitly. -/
theorem c1_decrypt_encrypt_roundtrip (P W : String) (salt nonce : List Nat)
    (hsl : salt.length = 16) (hsb : ∀ b ∈ salt, b < 256)
    (hnl : nonce.length = 12) (hnb : ∀ b ∈ nonce, b < 256) :
    Encryption.decrypt (Encryption.encrypt P W salt nonce) W =
      DecryptResult.ok P := by
  rw [decrypt_encrypt_eval P W W salt nonce hsb hnl hnb]
  rw [aeadDecrypt_aeadEncrypt]
  simp only [stringFromUtf8_utf8Bytes]

theorem c1_witness :
    (List.replicate 16 7 : List Nat).length = 16 ∧
    Encryption.decrypt
      (Encryption.encrypt "Secret note" "hunter2"
        (List.replicate 16 7) (List.replicate 12 3)) "hunter2" =
      DecryptResult.ok "Secret note" :=
  ⟨by decide,
   c1_decrypt_encrypt_roundtrip "Secret note" "hunter2"
     (List.replicate 16 7) (List.replicate 12 3)
     (by decide) (by decide) (by decide) (by decide)⟩

/-- C2: for every plaintext P and distinct passwords W1 ≠ W2,
`decrypt(encrypt(P, W1), W2)` fails with the authentication error — the
fixed message "Decryption failed - wrong password?" used for every
authentication failure, so a wrong password is indistinguishable from
corrupted data — and never returns a plaintext.  (Holds in the ideal
model of the KDF and AEAD, where distinct passwords derive distinct keys
and any wrong key fails authentication.) -/
theorem c2_wrong_password (P W1 W2 : String) (salt nonce : List Nat)
    (hW : W1 ≠ W2) (hsb : ∀ b ∈ salt, b < 256)
    (hnl : nonce.length = 12) (hnb : ∀ b ∈ nonce, b < 256) :
    Encryption.decrypt (Encryption.encrypt P W1 salt nonce) W2 =
      DecryptResult.err "Decryption failed - wrong password?" := by
  rw [decrypt_encrypt_eval P W1 W2 salt nonce hsb hnl hnb]
  rw [aeadDecrypt_wrong_key _ _ _ _
    (fun hk => hW (deriveKey_injective_password hk))]

theorem c2_witness :
    ("correct_password" : String) ≠ "wrong_password" ∧
    Encryption.decrypt
      (Encryption.encrypt "Secret data" "correct_password"
        (List.replicate 16 9) (List.replicate 12 4)) "wrong_password" =
      DecryptResult.err "Decryption failed - wrong password?" :=
  ⟨by decide,
   c2_wrong_password "Secret data" "correct_password" "wrong_password"
     (List.replicate 16 9) (List.replicate 12 4)
     (by decide) (by decide) (by decide) (by decide)⟩

/-- C3: each `encrypt` call's stored salt and nonce are exactly the fresh
random bytes drawn from `OsRng` for that call (they depend on nothing
else), so two calls — even with identical plaintext and password — whose
independent random draws differ never produce an identical salt or an
identical nonce field.  This is the two-run statement over the random
inputs of `encrypt`. -/
theorem c3_fresh_salt_and_nonce (P W : String) (s1 n1 s2 n2 : List Nat)
    (hs1 : ∀ b ∈ s1, b < 256) (hs2 : ∀ b ∈ s2, b < 256)
    (hn1 : ∀ b ∈ n1, b < 256) (hn2 : ∀ b ∈ n2, b < 256) :
    (Encryption.encrypt P W s1 n1).salt = base64Encode s1 ∧
    (Encryption.encrypt P W s1 n1).nonce = base64Encode n1 ∧
    (s1 ≠ s2 →
      (Encryption.encrypt P W s1 n1).salt ≠
        (Encryption.encrypt P W s2 n2).salt) ∧
    (n1 ≠ n2 →
      (Encryption.encrypt P W s1 n1).nonce ≠
        (Encryption.encrypt P W s2 n2).nonce) := by
  refine ⟨rfl, rfl, ?_, ?_⟩
  · intro hne hc
    exact hne (base64Encode_injective hs1 hs2 hc)
  · intro hne hc
    exact hne (base64Encode_injective hn1 hn2 hc)

theorem c3_witness :
    (List.replicate 16 0 : List Nat) ≠ List.replicate 16 1 ∧
    (Encryption.encrypt "note body" "pw" (List.replicate 16 0)
        (List.replicate 12 0)).salt ≠
      (Encryption.encrypt "note body" "pw" (List.replicate 16 1)
        (List.replicate 12 1)).salt :=
  ⟨by decide,
   (c3_fresh_salt_and_nonce "note body" "pw"
     (List.replicate 16 0) (List.replicate 12 0)
     (List.replicate 16 1) (List.replicate 12 1)
     (by decide) (by decide) (by decide) (by decide)).2.2.1 (by decide)⟩

/-- C10: when no password hash has been stored (`is_password_set` is
false), `verify_password` returns `false` for every candidate password —
it neither errors nor panics on the absent-hash case. -/
theorem c10_verify_password_no_hash (e : Encryption) (p : String)
    (h : Encryption.is_password_set e = false) :
    Encryption.verify_password e p = false := by
  unfold Encryption.verify_password
  cases he : e.password_hash with
  | none => rfl
  | some v =>
      unfold Encryption.is_password_set at h
      rw [he] at h
      simp at h

theorem c10_witness :
    Encryption.is_password_set Encryption.new = false ∧
    Encryption.verify_password Encryption.new "secret" = false :=
  ⟨rfl, c10_verify_password_no_hash Encryption.new "secret" rfl⟩

/-- C5, the code's actual behaviour at the failing input: an
`EncryptedData` whose three fields are all valid base64 but whose nonce
field decodes to 8 bytes (length ≠ 12) drives `decrypt` into
`Nonce::from_slice` on a short slice, which panics (aborts) instead of
returning the decode/encoding error the claim requires. -/
theorem c5_decrypt_short_nonce_panics :
    Encryption.decrypt
      { ciphertext := base64Encode [1, 2, 3]
        nonce := base64Encode [0, 0, 0, 0, 0, 0, 0, 0]
        salt := base64Encode (List.replicate 16 0) } "password" =
      DecryptResult.panicked "GenericArray::from_slice: slice length mismatch" := by
  decide

/-! ## Link Graph (src/links.rs)

Note identities are `(folder_idx, note_idx)` pairs.  The two `HashMap`s of
`LinkManager` are modelled as association lists with `Option`-valued
lookup, so that an absent key and a key holding an empty vector are
distinguished exactly as in `HashMap`; map equality is stated
extensionally on lookups, which is `HashMap` equality. -/

/-- Note identity `(folder_idx, note_idx)`. -/
abbrev NoteId : Type := Nat × Nat

/-- A `HashMap<(usize, usize), Vec<(usize, usize)>>`, as an association
list with unique keys. -/
abbrev EdgeMap : Type := List (NoteId × List NoteId)

/-- Models `HashMap::get`. -/
def lookupE : EdgeMap → NoteId → Option (List NoteId)
  | [], _ => none
  | (k, v) :: rest, key => if k = key then some v else lookupE rest key

/-- Models `HashMap::remove` (the removal itself; the returned old value
is read via `lookupE`). -/
def removeE : EdgeMap → NoteId → EdgeMap
  | [], _ => []
  | (k, v) :: rest, key =>
      if k = key then removeE rest key else (k, v) :: removeE rest key

/-- Models `map.entry(key).or_insert_with(Vec::new).push(v)`. -/
def pushE : EdgeMap → NoteId → NoteId → EdgeMap
  | [], key, v => [(key, [v])]
  | (k, vs) :: rest, key, v =>
      if k = key then (k, vs ++ [v]) :: rest else (k, vs) :: pushE rest key v

/-- Models `if let Some(vec) = map.get_mut(&key) { vec.retain(p) }`. -/
def retainE : EdgeMap → NoteId → (NoteId → Bool) → EdgeMap
  | [], _, _ => []
  | (k, v) :: rest, key, p =>
      if k = key then (k, v.filter p) :: retainE rest key p
      else (k, v) :: retainE rest key p

theorem lookupE_removeE (m : EdgeMap) (key k2 : NoteId) :
    lookupE (removeE m key) k2 =
      if k2 = key then none else lookupE m k2 := by
  induction m with
  | nil => simp [removeE, lookupE]
  | cons kv rest ih =>
      obtain ⟨k, v⟩ := kv
      simp only [removeE, lookupE]
      split_ifs <;> simp_all [lookupE]

theorem lookupE_pushE (m : EdgeMap) (key v k2 : NoteId) :
    lookupE (pushE m key v) k2 =
      if k2 = key then some ((lookupE m key).getD [] ++ [v])
      else lookupE m k2 := by
  induction m with
  | nil =>
      simp only [pushE, lookupE]
      split_ifs <;> simp_all
  | cons kv rest ih =>
      obtain ⟨k, vs⟩ := kv
      simp only [pushE, lookupE]
      split_ifs <;> simp_all [lookupE]

theorem lookupE_retainE (m : EdgeMap) (key : NoteId) (p : NoteId → Bool)
    (k2 : NoteId) :
    lookupE (retainE m key p) k2 =
      if k2 = key then (lookupE m k2).map (fun l => l.filter p)
      else lookupE m k2 := by
  induction m with
  | nil => simp [retainE, lookupE]
  | cons kv rest ih =>
      obtain ⟨k, v⟩ := kv
      simp only [retainE, lookupE]
      split_ifs <;> simp_all [lookupE]

/-- Struct `LinkManager` (src/links.rs lines 13-19): outgoing links and incoming
links (backlinks), keyed by note identity. -/
structure LinkManager where
  outgoing_links : EdgeMap
  incoming_links : EdgeMap

/-- Models `LinkManager::new`. -/
def LinkManager.new : LinkManager :=
  { outgoing_links := [], incoming_links := [] }

/-- Models `LinkManager::add_link` (src/links.rs lines 29-45): pushes the target
onto the source's outgoing vector and the source onto the target's
incoming (backlink) vector. -/
def LinkManager.add_link (m : LinkManager) (source target : NoteId) :
    LinkManager :=
  { outgoing_links := pushE m.outgoing_links source target
    incoming_links := pushE m.incoming_links target source }

/-- The character scanner of `LinkManager::scan_note_for_links`
(src/links.rs lines 75-108), written as the state machine the two nested
`while let` loops implement: `none` is the outer loop (outside a link),
`some acc` is the inner loop (inside `[[ ... ]]`, text accumulated in
reverse).  A `]` not followed by a second `]` is pushed into the link
text; an unterminated `[[` consumes the rest of the input and yields
nothing; an empty link text is dropped. -/
def scanLinksAux : Option (List Char) → List Char → List String
  | none, '[' :: '[' :: rest => scanLinksAux (some []) rest
  | none, _ :: rest => scanLinksAux none rest
  | none, [] => []
  | some acc, ']' :: ']' :: rest =>
      if acc.isEmpty then scanLinksAux none rest
      else String.mk acc.reverse :: scanLinksAux none rest
  | some acc, c :: rest => scanLinksAux (some (c :: acc)) rest
  | some _, [] => []

/-- Models `LinkManager::scan_note_for_links`: extracts `[[Note Name]]` style
links, in order of occurrence.  (The Rust method takes `&mut self` and the
source note id but uses neither; it is a pure function of the content.) -/
def LinkManager.scan_note_for_links (content : String) : List String :=
  scanLinksAux none content.data

/-- Models `note_name_to_id.get(&link_name)` on the name-to-id map
(a `HashMap<String, (usize, usize)>`). -/
def lookupName : List (String × NoteId) → String → Option NoteId
  | [], _ => none
  | (s, id) :: rest, name =>
      if s = name then some id else lookupName rest name

/-- The first half of `LinkManager::rebuild_links_for_note` (src/links.rs
lines 116-124): remove the source's outgoing entry and, for each of its
old targets, retain only backlinks not equal to the source. -/
def LinkManager.clear_outgoing (m : LinkManager) (source : NoteId) :
    LinkManager :=
  match lookupE m.outgoing_links source with
  | some old_targets =>
      { outgoing_links := removeE m.outgoing_links source
        incoming_links :=
          old_targets.foldl
            (fun inc target =>
              retainE inc target (fun t => decide (t ≠ source)))
            m.incoming_links }
  | none => m

/-- Models `LinkManager::rebuild_links_for_note` (src/links.rs lines 110-135):
clear the source's existing outgoing links (and the matching backlinks),
re-scan the content, and add a link for every name the map resolves;
unresolvable names are silently skipped. -/
def LinkManager.rebuild_links_for_note (m : LinkManager) (source : NoteId)
    (content : String) (note_name_to_id : List (String × NoteId)) :
    LinkManager :=
  (LinkManager.scan_note_for_links content).foldl
    (fun acc link_name =>
      match lookupName note_name_to_id link_name with
      | some target => acc.add_link source target
      | none => acc)
    (m.clear_outgoing source)

/-- C8: `scan_note_for_links` yields, in order, the enclosed text of each
double-bracket occurrence closed before end of input, and silently drops
unterminated openings: on "See [[Alpha]] and [[Beta]]." it returns exactly
["Alpha", "Beta"], and on "Unclosed [[Gamma" it returns the empty list. -/
theorem c8_scan_note_for_links_examples :
    LinkManager.scan_note_for_links "See [[Alpha]] and [[Beta]]." =
      ["Alpha", "Beta"] ∧
    LinkManager.scan_note_for_links "Unclosed [[Gamma" = [] := by
  constructor <;> rfl

/-- The members of `outgoing_links[a]` (empty when the key is absent). -/
def outList (m : LinkManager) (a : NoteId) : List NoteId :=
  (lookupE m.outgoing_links a).getD []

/-- The members of `incoming_links[b]` (empty when the key is absent). -/
def incList (m : LinkManager) (b : NoteId) : List NoteId :=
  (lookupE m.incoming_links b).getD []

/-- The backlink inverse invariant of the spec:
`target ∈ outgoing[source] ⇔ source ∈ incoming[target]`. -/
def LinkInv (m : LinkManager) : Prop :=
  ∀ a b : NoteId, b ∈ outList m a ↔ a ∈ incList m b

/-- Link-manager states reachable from the empty graph by
`rebuild_links_for_note` calls. -/
inductive ReachableLM : LinkManager → Prop where
  | base : ReachableLM LinkManager.new
  | step (m : LinkManager) (source : NoteId) (content : String)
      (map : List (String × NoteId)) (h : ReachableLM m) :
      ReachableLM (m.rebuild_links_for_note source content map)

theorem mem_outList_add_link (m : LinkManager) (s t a b : NoteId) :
    b ∈ outList (m.add_link s t) a ↔
      b ∈ outList m a ∨ (a = s ∧ b = t) := by
  unfold outList LinkManager.add_link
  rw [lookupE_pushE]
  by_cases h : a = s
  · subst h
    simp
  · simp [h]

theorem mem_incList_add_link (m : LinkManager) (s t a b : NoteId) :
    a ∈ incList (m.add_link s t) b ↔
      a ∈ incList m b ∨ (b = t ∧ a = s) := by
  unfold incList LinkManager.add_link
  rw [lookupE_pushE]
  by_cases h : b = t
  · subst h
    simp
  · simp [h]

theorem linkInv_add_link {m : LinkManager} (h : LinkInv m)
    (s t : NoteId) : LinkInv (m.add_link s t) := by
  intro a b
  rw [mem_outList_add_link, mem_incList_add_link, h a b]
  tauto

theorem lookupE_foldl_retainE (T : List NoteId) (inc : EdgeMap)
    (p : NoteId → Bool) (b : NoteId) :
    lookupE (T.foldl (fun acc t => retainE acc t p) inc) b =
      if b ∈ T then (lookupE inc b).map (fun l => l.filter p)
      else lookupE inc b := by
  induction T generalizing inc with
  | nil => simp
  | cons t T2 ih =>
      rw [List.foldl_cons, ih, lookupE_retainE]
      have hidem : ∀ o : Option (List NoteId),
          (o.map (fun l => l.filter p)).map (fun l => l.filter p) =
            o.map (fun l => l.filter p) := by
        intro o
        cases o with
        | none => rfl
        | some l =>
            simp only [Option.map]
            rw [List.filter_eq_self.mpr (fun a ha => (List.mem_filter.mp ha).2)]
      by_cases h1 : b = t
      · subst h1
        by_cases h2 : b ∈ T2 <;> simp [h2, hidem]
      · by_cases h2 : b ∈ T2 <;> simp [h1, h2]

theorem mem_outList_clear (m : LinkManager) (source a b : NoteId) :
    b ∈ outList (m.clear_outgoing source) a ↔
      a ≠ source ∧ b ∈ outList m a := by
  unfold LinkManager.clear_outgoing
  cases hc : lookupE m.outgoing_links source with
  | none =>
      constructor
      · intro hb
        refine ⟨?_, hb⟩
        intro he
        subst he
        unfold outList at hb
        rw [hc] at hb
        simp at hb
      · exact fun hb => hb.2
  | some T0 =>
      unfold outList
      simp only [lookupE_removeE]
      by_cases h : a = source
      · subst h
        simp
      · simp [h]

theorem mem_incList_clear (m : LinkManager) (source : NoteId)
    (hInv : LinkInv m) (a b : NoteId) :
    a ∈ incList (m.clear_outgoing source) b ↔
      a ≠ source ∧ a ∈ incList m b := by
  unfold LinkManager.clear_outgoing
  cases hc : lookupE m.outgoing_links source with
  | none =>
      constructor
      · intro hb
        refine ⟨?_, hb⟩
        intro he
        subst he
        have hout : b ∈ outList m a := (hInv a b).mpr hb
        unfold outList at hout
        rw [hc] at hout
        simp at hout
      · exact fun hb => hb.2
  | some T0 =>
      unfold incList
      simp only [lookupE_foldl_retainE]
      by_cases hT : b ∈ T0
      · rw [if_pos hT]
        cases hl : lookupE m.incoming_links b with
        | none => simp
        | some l =>
            simp [List.mem_filter]
            tauto
      · rw [if_neg hT]
        constructor
        · intro hb
          refine ⟨?_, hb⟩
          intro he
          subst he
          have hout : b ∈ outList m a := (hInv a b).mpr hb
          unfold outList at hout
          rw [hc] at hout
          simp at hout
          exact hT hout
        · exact fun hb => hb.2

theorem linkInv_clear {m : LinkManager} (hInv : LinkInv m)
    (source : NoteId) : LinkInv (m.clear_outgoing source) := by
  intro a b
  rw [mem_outList_clear, mem_incList_clear m source hInv]
  constructor
  · intro ⟨h1, h2⟩
    exact ⟨h1, (hInv a b).mp h2⟩
  · intro ⟨h1, h2⟩
    exact ⟨h1, (hInv a b).mpr h2⟩

theorem linkInv_resolve_fold (names : List String)
    (map : List (String × NoteId)) (source : NoteId) :
    ∀ m1 : LinkManager, LinkInv m1 →
      LinkInv (names.foldl
        (fun acc link_name =>
          match lookupName map link_name with
          | some target => acc.add_link source target
          | none => acc)
        m1) := by
  induction names with
  | nil => intro m1 h; exact h
  | cons n ns ih =>
      intro m1 h
      rw [List.foldl_cons]
      cases hn : lookupName map n with
      | none => simpa [hn] using ih m1 h
      | some t => simpa [hn] using ih _ (linkInv_add_link h source t)

/-- Every reachable link-manager state satisfies the inverse invariant. -/
theorem reachable_linkInv {m : LinkManager} (h : ReachableLM m) :
    LinkInv m := by
  induction h with
  | base =>
      intro a b
      simp [outList, incList, LinkManager.new, lookupE]
  | step m source content map hm ih =>
      unfold LinkManager.rebuild_links_for_note
      exact linkInv_resolve_fold _ _ _ _ (linkInv_clear ih source)

/-- C4: after any finite sequence of `rebuild_links_for_note` calls
starting from the empty link graph, for every pair of note identities
(a, b): b is a member of `outgoing_links[a]` iff a is a member of
`incoming_links[b]` — the two maps are kept exact inverses. -/
theorem c4_backlink_inverse (m : LinkManager) (h : ReachableLM m)
    (a b : NoteId) : b ∈ outList m a ↔ a ∈ incList m b :=
  reachable_linkInv h a b

theorem c4_witness :
    (1, 1) ∈ outList
      (LinkManager.new.rebuild_links_for_note (0, 0) "See [[A]]"
        [("A", (1, 1))]) (0, 0) ∧
    ((1, 1) ∈ outList
        (LinkManager.new.rebuild_links_for_note (0, 0) "See [[A]]"
          [("A", (1, 1))]) (0, 0) ↔
      (0, 0) ∈ incList
        (LinkManager.new.rebuild_links_for_note (0, 0) "See [[A]]"
          [("A", (1, 1))]) (1, 1)) :=
  ⟨by decide,
   c4_backlink_inverse _
     (ReachableLM.step LinkManager.new (0, 0) "See [[A]]" [("A", (1, 1))]
       ReachableLM.base) (0, 0) (1, 1)⟩

/-- The resolve-and-add fold of `rebuild_links_for_note` acts
componentwise: outgoing receives a push per resolved target under the
source key, incoming a push of the source under each target key. -/
theorem resolve_fold_eq (names : List String)
    (map : List (String × NoteId)) (source : NoteId) (m1 : LinkManager) :
    names.foldl
      (fun acc link_name =>
        match lookupName map link_name with
        | some target => acc.add_link source target
        | none => acc)
      m1 =
    { outgoing_links :=
        (names.filterMap (lookupName map)).foldl
          (fun o t => pushE o source t) m1.outgoing_links
      incoming_links :=
        (names.filterMap (lookupName map)).foldl
          (fun i t => pushE i t source) m1.incoming_links } := by
  induction names generalizing m1 with
  | nil => rfl
  | cons n ns ih =>
      rw [List.foldl_cons, List.filterMap_cons]
      cases hn : lookupName map n with
      | none => rw [ih]
      | some t => rw [ih]; rfl

theorem lookupE_foldl_pushE_key (T : List NoteId) (o : EdgeMap)
    (source k : NoteId) (h : k ≠ source) :
    lookupE (T.foldl (fun acc t => pushE acc source t) o) k =
      lookupE o k := by
  induction T generalizing o with
  | nil => rfl
  | cons t T2 ih =>
      rw [List.foldl_cons, ih, lookupE_pushE, if_neg h]

theorem lookupE_foldl_pushE_source (T : List NoteId) (o : EdgeMap)
    (source : NoteId) (hT : T ≠ []) :
    lookupE (T.foldl (fun acc t => pushE acc source t) o) source =
      some ((lookupE o source).getD [] ++ T) := by
  induction T generalizing o with
  | nil => exact absurd rfl hT
  | cons t T2 ih =>
      rw [List.foldl_cons]
      by_cases h2 : T2 = []
      · subst h2
        rw [List.foldl_nil, lookupE_pushE, if_pos rfl]
      · rw [ih _ h2, lookupE_pushE, if_pos rfl]
        simp [List.append_assoc]

theorem lookupE_foldl_pushE_targets (T : List NoteId) (i : EdgeMap)
    (source b : NoteId) :
    lookupE (T.foldl (fun acc t => pushE acc t source) i) b =
      if b ∈ T then
        some ((lookupE i b).getD [] ++ List.replicate (T.count b) source)
      else lookupE i b := by
  induction T generalizing i with
  | nil => simp
  | cons t T2 ih =>
      rw [List.foldl_cons, ih]
      by_cases h1 : b = t
      · subst h1
        by_cases h2 : b ∈ T2
        · rw [if_pos h2, if_pos (List.mem_cons_self b T2), lookupE_pushE,
            if_pos rfl]
          rw [List.count_cons_self, Option.getD_some, List.append_assoc,
            List.replicate_succ]
          rfl
        · rw [if_neg h2, if_pos (List.mem_cons_self b T2), lookupE_pushE,
            if_pos rfl]
          have hc : List.count b (b :: T2) = 1 := by
            rw [List.count_cons_self, List.count_eq_zero_of_not_mem h2]
          rw [hc]
          rfl
      · by_cases h2 : b ∈ T2
        · rw [if_pos h2, if_pos (List.mem_cons_of_mem t h2), lookupE_pushE,
            if_neg h1]
          rw [List.count_cons_of_ne h1]
        · rw [if_neg h2, if_neg (by simp [h1, h2] : ¬ b ∈ t :: T2),
            lookupE_pushE, if_neg h1]

theorem lookupE_clear_out (m : LinkManager) (source k : NoteId) :
    lookupE (m.clear_outgoing source).outgoing_links k =
      if k = source then none else lookupE m.outgoing_links k := by
  unfold LinkManager.clear_outgoing
  cases hc : lookupE m.outgoing_links source with
  | none =>
      by_cases h : k = source
      · subst h; simp [hc]
      · simp [h]
  | some T0 =>
      simp [lookupE_removeE]

theorem lookupE_clear_inc (m : LinkManager) (source b : NoteId) :
    lookupE (m.clear_outgoing source).incoming_links b =
      if b ∈ (lookupE m.outgoing_links source).getD [] then
        (lookupE m.incoming_links b).map
          (fun l => l.filter (fun t => decide (t ≠ source)))
      else lookupE m.incoming_links b := by
  unfold LinkManager.clear_outgoing
  cases hc : lookupE m.outgoing_links source with
  | none => simp
  | some T0 => simp [lookupE_foldl_retainE]

/-- Outgoing lookup after a rebuild: the source holds exactly the resolved
target list (or no entry when nothing resolves), all other keys are
untouched. -/
theorem lookupE_rebuild_out (m : LinkManager) (source : NoteId)
    (content : String) (map : List (String × NoteId)) (k : NoteId) :
    lookupE (m.rebuild_links_for_note source content map).outgoing_links k =
      if k = source then
        (if (LinkManager.scan_note_for_links content).filterMap
            (lookupName map) = [] then none
         else some ((LinkManager.scan_note_for_links content).filterMap
            (lookupName map)))
      else lookupE m.outgoing_links k := by
  unfold LinkManager.rebuild_links_for_note
  rw [resolve_fold_eq]
  by_cases h : k = source
  · subst h
    rw [if_pos rfl]
    by_cases hT : (LinkManager.scan_note_for_links content).filterMap
        (lookupName map) = []
    · rw [if_pos hT, hT, List.foldl_nil, lookupE_clear_out, if_pos rfl]
    · rw [if_neg hT, lookupE_foldl_pushE_source _ _ _ hT,
        lookupE_clear_out, if_pos rfl]
      rfl
  · rw [if_neg h]
    rw [lookupE_foldl_pushE_key _ _ _ _ h, lookupE_clear_out, if_neg h]

/-- Incoming lookup after a rebuild, in terms of the cleared state. -/
theorem lookupE_rebuild_inc (m : LinkManager) (source : NoteId)
    (content : String) (map : List (String × NoteId)) (b : NoteId) :
    lookupE (m.rebuild_links_for_note source content map).incoming_links b =
      if b ∈ (LinkManager.scan_note_for_links content).filterMap
          (lookupName map) then
        some ((lookupE (m.clear_outgoing source).incoming_links b).getD [] ++
          List.replicate
            (((LinkManager.scan_note_for_links content).filterMap
              (lookupName map)).count b) source)
      else lookupE (m.clear_outgoing source).incoming_links b := by
  unfold LinkManager.rebuild_links_for_note
  rw [resolve_fold_eq]
  exact lookupE_foldl_pushE_targets _ _ _ _

theorem filter_replicate_not_mem (n : Nat) (a : NoteId) (p : NoteId → Bool)
    (h : p a = false) : (List.replicate n a).filter p = [] := by
  induction n with
  | zero => rfl
  | succ n ih => rw [List.replicate_succ, List.filter_cons, h]; simpa using ih

/-- In an invariant state, after clearing the source's outgoing links no
incoming vector mentions the source any more. -/
theorem source_not_mem_clear_inc (m : LinkManager) (hInv : LinkInv m)
    (source b : NoteId) :
    source ∉ (lookupE (m.clear_outgoing source).incoming_links b).getD [] := by
  rw [lookupE_clear_inc]
  by_cases hb : b ∈ (lookupE m.outgoing_links source).getD []
  · rw [if_pos hb]
    cases hl : lookupE m.incoming_links b with
    | none => simp
    | some l => simp [List.mem_filter]
  · rw [if_neg hb]
    intro hmem
    have hout : b ∈ outList m source := (hInv source b).mpr hmem
    exact hb hout

/-- Rebuild is idempotent on every invariant state, at the level of map
lookups (`HashMap` equality): a second rebuild with identical arguments
changes neither map. -/
theorem rebuild_idem_of_inv (m : LinkManager) (hInv : LinkInv m)
    (source : NoteId) (content : String) (map : List (String × NoteId))
    (k : NoteId) :
    lookupE ((m.rebuild_links_for_note source content
          map).rebuild_links_for_note source content map).outgoing_links k =
      lookupE (m.rebuild_links_for_note source content map).outgoing_links
        k ∧
    lookupE ((m.rebuild_links_for_note source content
          map).rebuild_links_for_note source content map).incoming_links k =
      lookupE (m.rebuild_links_for_note source content map).incoming_links
        k := by
  have hmemiff : ∀ b : NoteId,
      (b ∈ (lookupE (m.rebuild_links_for_note source content
          map).outgoing_links source).getD []) ↔
        b ∈ (LinkManager.scan_note_for_links content).filterMap
          (lookupName map) := by
    intro b
    rw [lookupE_rebuild_out, if_pos rfl]
    by_cases hT0 : (LinkManager.scan_note_for_links content).filterMap
        (lookupName map) = []
    · simp [hT0]
    · simp [hT0]
  constructor
  · rw [lookupE_rebuild_out (m.rebuild_links_for_note source content map),
      lookupE_rebuild_out m]
    by_cases hk : k = source <;> simp [hk]
  · rw [lookupE_rebuild_inc (m.rebuild_links_for_note source content map),
      lookupE_rebuild_inc m]
    by_cases hkT : k ∈ (LinkManager.scan_note_for_links content).filterMap
        (lookupName map)
    · rw [if_pos hkT, if_pos hkT]
      have h1 : lookupE ((m.rebuild_links_for_note source content
            map).clear_outgoing source).incoming_links k =
          (lookupE (m.rebuild_links_for_note source content
            map).incoming_links k).map
            (fun l => l.filter (fun t => decide (t ≠ source))) := by
        rw [lookupE_clear_inc, if_pos ((hmemiff k).mpr hkT)]
      have h2 : lookupE (m.rebuild_links_for_note source content
            map).incoming_links k =
          some (((lookupE (m.clear_outgoing source).incoming_links k).getD
            []) ++ List.replicate
              (((LinkManager.scan_note_for_links content).filterMap
                (lookupName map)).count k) source) := by
        rw [lookupE_rebuild_inc, if_pos hkT]
      have hsrc : source ∉
          (lookupE (m.clear_outgoing source).incoming_links k).getD [] :=
        source_not_mem_clear_inc m hInv source k
      have h3 : (((lookupE (m.clear_outgoing source).incoming_links k).getD
            []) ++ List.replicate
              (((LinkManager.scan_note_for_links content).filterMap
                (lookupName map)).count k) source).filter
            (fun t => decide (t ≠ source)) =
          ((lookupE (m.clear_outgoing source).incoming_links k).getD
            []) := by
        rw [List.filter_append,
          filter_replicate_not_mem _ _ _ (by simp), List.append_nil]
        refine List.filter_eq_self.mpr (fun a ha => ?_)
        simp only [decide_eq_true_eq]
        intro he
        subst he
        exact hsrc ha
      rw [h1, h2]
      simp only [Option.map]
      rw [h3]
      rfl
    · rw [if_neg hkT, if_neg hkT]
      rw [lookupE_clear_inc,
        if_neg (fun hmem => hkT ((hmemiff k).mp hmem)),
        lookupE_rebuild_inc, if_neg hkT]

/-- C7: `rebuild_links_for_note` is idempotent on every application state
(reachable link graph): for every note identity, body string and
name-to-id map, a second consecutive call with identical arguments leaves
both the outgoing and the incoming map exactly as after the first call
(extensional `HashMap` equality, vector order and multiplicity
included). -/
theorem c7_rebuild_idempotent (m : LinkManager) (h : ReachableLM m)
    (source : NoteId) (content : String) (map : List (String × NoteId))
    (k : NoteId) :
    lookupE ((m.rebuild_links_for_note source content
          map).rebuild_links_for_note source content map).outgoing_links k =
      lookupE (m.rebuild_links_for_note source content map).outgoing_links
        k ∧
    lookupE ((m.rebuild_links_for_note source content
          map).rebuild_links_for_note source content map).incoming_links k =
      lookupE (m.rebuild_links_for_note source content map).incoming_links
        k :=
  rebuild_idem_of_inv m (reachable_linkInv h) source content map k

theorem c7_witness :
    lookupE ((LinkManager.new.rebuild_links_for_note (0, 0)
          "See [[A]] then [[B]] then [[A]]"
          [("A", (1, 1)), ("B", (2, 2))]).rebuild_links_for_note (0, 0)
          "See [[A]] then [[B]] then [[A]]"
          [("A", (1, 1)), ("B", (2, 2))]).incoming_links (1, 1) =
      lookupE (LinkManager.new.rebuild_links_for_note (0, 0)
          "See [[A]] then [[B]] then [[A]]"
          [("A", (1, 1)), ("B", (2, 2))]).incoming_links (1, 1) :=
  (c7_rebuild_idempotent LinkManager.new ReachableLM.base (0, 0)
    "See [[A]] then [[B]] then [[A]]" [("A", (1, 1)), ("B", (2, 2))]
    (1, 1)).2

/-! ## Storage Engine (src/storage.rs, src/note.rs) -/

/-- The per-character map of `sanitize_filename` (src/storage.rs lines
190-198): alphanumeric, space, hyphen and underscore are preserved,
everything else becomes an underscore.  (`char::is_alphanumeric` is
modelled by `Char.isAlphanum`; every character the claims exercise is
ASCII, where the two predicates agree.) -/
def sanitizeMapChar (c : Char) : Char :=
  if c.isAlphanum ∨ c = ' ' ∨ c = '-' ∨ c = '_' then c else '_'

/-- Models `str::trim`: strip whitespace from both ends. -/
def trimChars (l : List Char) : List Char :=
  ((l.dropWhile Char.isWhitespace).reverse.dropWhile
    Char.isWhitespace).reverse

/-- Models `sanitize_filename` (src/storage.rs lines 189-201): map each
character, collect, then trim. -/
def sanitize_filename (name : String) : String :=
  String.mk (trimChars (name.data.map sanitizeMapChar))

theorem mem_trimChars {c : Char} {l : List Char} (h : c ∈ trimChars l) :
    c ∈ l := by
  unfold trimChars at h
  rw [List.mem_reverse] at h
  have h2 := List.Sublist.mem h (List.dropWhile_sublist _)
  rw [List.mem_reverse] at h2
  exact List.Sublist.mem h2 (List.dropWhile_sublist _)

theorem dropWhile_mem {p : Char → Bool} {l : List Char} {e : Char}
    (he : e ∈ l) (hp : p e = false) : e ∈ l.dropWhile p := by
  induction l with
  | nil => cases he
  | cons a l ih =>
      rw [List.dropWhile_cons]
      by_cases ha : p a = true
      · rw [if_pos ha]
        rcases List.mem_cons.mp he with rfl | h2
        · rw [hp] at ha; cases ha
        · exact ih h2
      · rw [if_neg ha]
        exact he

theorem isAlphanum_not_ws (c : Char) (h : c.isAlphanum = true) :
    c.isWhitespace = false := by
  by_cases h1 : c = ' '
  · rw [h1] at h; exact absurd h (by decide)
  · by_cases h2 : c = '\t'
    · rw [h2] at h; exact absurd h (by decide)
    · by_cases h3 : c = '\r'
      · rw [h3] at h; exact absurd h (by decide)
      · by_cases h4 : c = '\n'
        · rw [h4] at h; exact absurd h (by decide)
        · unfold Char.isWhitespace
          simp [h1, h2, h3, h4]

theorem sanitizeMapChar_not_ws (c : Char) (h : c ≠ ' ') :
    (sanitizeMapChar c).isWhitespace = false := by
  unfold sanitizeMapChar
  split_ifs with hcond
  · rcases hcond with ha | h1 | h1 | h1
    · exact isAlphanum_not_ws c ha
    · exact absurd h1 h
    · rw [h1]; decide
    · rw [h1]; decide
  · decide

/-- C9 counterexample: the single-space string is non-empty, yet
`sanitize_filename` maps it to the empty string (the space survives the
character map and is then removed by the trim), refuting "the sanitized
result is non-empty for every non-empty input". -/
theorem c9_counterexample : (" " : String) ≠ "" ∧ sanitize_filename " " = "" :=
  ⟨by decide, rfl⟩

/-- C9 (amended): for every input the sanitized title contains only
alphanumeric characters, spaces, hyphens and underscores (hence no
path-separator or reserved characters); for every input containing at
least one non-space character the result is non-empty (for whitespace-only
non-empty inputs it is empty); and on "My: Note/Idea?" the result is the
non-empty clean string "My_ Note_Idea_". -/
theorem c9_sanitize_filename_amended :
    (∀ s : String, ∀ c ∈ (sanitize_filename s).data,
      c.isAlphanum = true ∨ c = ' ' ∨ c = '-' ∨ c = '_') ∧
    (∀ s : String, (∃ c ∈ s.data, c ≠ ' ') → sanitize_filename s ≠ "") ∧
    sanitize_filename "My: Note/Idea?" = "My_ Note_Idea_" ∧
    sanitize_filename "My: Note/Idea?" ≠ "" := by
  refine ⟨?_, ?_, rfl, by decide⟩
  · intro s c hc
    have h1 : c ∈ s.data.map sanitizeMapChar := mem_trimChars hc
    obtain ⟨a, _, rfl⟩ := List.mem_map.mp h1
    unfold sanitizeMapChar
    split_ifs with h
    · rcases h with h | h | h | h
      · exact Or.inl h
      · exact Or.inr (Or.inl h)
      · exact Or.inr (Or.inr (Or.inl h))
      · exact Or.inr (Or.inr (Or.inr h))
    · exact Or.inr (Or.inr (Or.inr rfl))
  · intro s ⟨c, hc, hcne⟩
    intro hcon
    have hdata : trimChars (s.data.map sanitizeMapChar) = [] := by
      have := congrArg String.data hcon
      simpa [sanitize_filename] using this
    have he : sanitizeMapChar c ∈ s.data.map sanitizeMapChar :=
      List.mem_map_of_mem _ hc
    have hw : (sanitizeMapChar c).isWhitespace = false :=
      sanitizeMapChar_not_ws c hcne
    have h1 : sanitizeMapChar c ∈
        (s.data.map sanitizeMapChar).dropWhile Char.isWhitespace :=
      dropWhile_mem he hw
    have h2 : sanitizeMapChar c ∈
        ((s.data.map sanitizeMapChar).dropWhile
          Char.isWhitespace).reverse.dropWhile Char.isWhitespace :=
      dropWhile_mem (List.mem_reverse.mpr h1) hw
    have h3 : sanitizeMapChar c ∈ trimChars (s.data.map sanitizeMapChar) :=
      List.mem_reverse.mpr h2
    rw [hdata] at h3
    cases h3

theorem c9_witness :
    (∃ c ∈ ("x y" : String).data, c ≠ ' ') ∧ sanitize_filename "x y" ≠ "" :=
  ⟨⟨'x', by decide, by decide⟩,
   c9_sanitize_filename_amended.2.1 "x y" ⟨'x', by decide, by decide⟩⟩

/-- Struct `NoteTags` (src/tags.rs lines 69-72): a set of tag indices. -/
structure NoteTags where
  tag_indices : List Nat
deriving DecidableEq

/-- Struct `Note` (src/note.rs lines 6-20). -/
structure Note where
  title : String
  content : String
  created_at : String
  updated_at : String
  file_path : String
  tags : NoteTags
  is_encrypted : Bool
  encrypted_data : Option EncryptedData
  linked_notes : List NoteId
  embedded_images : List String
deriving DecidableEq

/-- Struct `NoteMetadata` (src/note.rs lines 77-86): the structured record the
metadata sidecar holds — timestamps, tags, encryption flag, encrypted
payload, linked-note ids, embedded image paths. -/
structure NoteMetadata where
  created_at : String
  updated_at : String
  tags : NoteTags
  is_encrypted : Bool
  encrypted_data : Option EncryptedData
  linked_notes : List NoteId
  embedded_images : List String
deriving DecidableEq

/-- Models `NoteMetadata::from_note` (src/note.rs lines 102-112): the full record
for a note — provided by the source precisely for writing the sidecar. -/
def NoteMetadata.from_note (note : Note) : NoteMetadata :=
  { created_at := note.created_at
    updated_at := note.updated_at
    tags := note.tags
    is_encrypted := note.is_encrypted
    encrypted_data := note.encrypted_data
    linked_notes := note.linked_notes
    embedded_images := note.embedded_images }

/-- The serde field keys of `NoteMetadata` — the keys of the key-value
document `serde_json::to_string_pretty` writes for the full record. -/
def noteMetadataKeys : List String :=
  ["created_at", "updated_at", "tags", "is_encrypted", "encrypted_data",
   "linked_notes", "embedded_images"]

/-- The metadata record `Storage::save_note` (src/storage.rs lines
138-141) actually constructs before serializing it to the sidecar: the
struct literal `NoteMetadata { created_at, updated_at }` provides only the
two timestamp fields of the seven-field `NoteMetadata` — as written the
literal does not even compile in Rust, the other five required fields
being absent from it. -/
structure SaveNoteSidecar where
  created_at : String
  updated_at : String
deriving DecidableEq

/-- The sidecar record `save_note` builds from the in-memory note. -/
def saveNoteSidecar (note : Note) : SaveNoteSidecar :=
  { created_at := note.created_at, updated_at := note.updated_at }

/-- The serde field keys of the record `save_note` writes. -/
def saveNoteSidecarKeys : List String := ["created_at", "updated_at"]

/-- C6, the code's actual behaviour at the failing input: the sidecar
record `save_note` rewrites carries only the two timestamps, not the full
promised record.  Two notes that differ precisely in the promised fields
(encryption flag, encrypted payload, tags, linked notes, embedded images)
produce identical sidecar records, while the full `NoteMetadata` records
(`from_note`, which `save_note` does not use) differ; the `is_encrypted`
key the on-disk layout promises is absent from the written record's
keys. -/
theorem c6_save_note_sidecar_not_full_record :
    saveNoteSidecar
        { title := "n", content := "c", created_at := "2024-01-01 00:00:00",
          updated_at := "2024-01-02 00:00:00", file_path := "p/n.md",
          tags := { tag_indices := [0] }, is_encrypted := true,
          encrypted_data :=
            some { ciphertext := "YQ==", nonce := "YQ==", salt := "YQ==" },
          linked_notes := [(1, 1)], embedded_images := ["img.png"] } =
      saveNoteSidecar
        { title := "n", content := "c", created_at := "2024-01-01 00:00:00",
          updated_at := "2024-01-02 00:00:00", file_path := "p/n.md",
          tags := { tag_indices := [] }, is_encrypted := false,
          encrypted_data := none, linked_notes := [],
          embedded_images := [] } ∧
    NoteMetadata.from_note
        { title := "n", content := "c", created_at := "2024-01-01 00:00:00",
          updated_at := "2024-01-02 00:00:00", file_path := "p/n.md",
          tags := { tag_indices := [0] }, is_encrypted := true,
          encrypted_data :=
            some { ciphertext := "YQ==", nonce := "YQ==", salt := "YQ==" },
          linked_notes := [(1, 1)], embedded_images := ["img.png"] } ≠
      NoteMetadata.from_note
        { title := "n", content := "c", created_at := "2024-01-01 00:00:00",
          updated_at := "2024-01-02 00:00:00", file_path := "p/n.md",
          tags := { tag_indices := [] }, is_encrypted := false,
          encrypted_data := none, linked_notes := [],
          embedded_images := [] } ∧
    "is_encrypted" ∉ saveNoteSidecarKeys ∧
    "is_encrypted" ∈ noteMetadataKeys := by
  refine ⟨rfl, ?_, by decide, by decide⟩
  intro h
  have := congrArg NoteMetadata.is_encrypted h
  simp [NoteMetadata.from_note] at this
